import Mathlib

/-!
Verification development for the dirutility repository (mrstephenneal/dirutility).

The development shallowly embeds the traversal engine of the repository:

* `src/dirutility/walk/walk.py` — class DirPaths (constructor and walk dispatch) and
  class DirTree (tree building with optional per-level branch filters);
* `src/dirutility/walk/crawler.py` — class Crawler (sequential traversal, methods
  encompass and filter);
* `src/dirutility/walk.py` — the legacy flat module (class DirPaths with walk and
  _get_filepaths).

Two collaborating modules of the repository are not present under src/ and are
modelled from the spec where needed: `dirutility/walk/filter.py` (class PathFilters)
and `dirutility/walk/multiprocess.py` (class Sprinter).  Each such definition carries
a doc comment starting with `Modelled from the spec:`.

The filesystem is modelled as a finite tree of named entries; `os.walk` is embedded
as the list of (relative dirpath, dirnames, filenames) rows it yields, top-down or
bottom-up.  Python exceptions are modelled with `Except`.
-/

namespace Dirutility

/-! ## Filesystem model -/

/-- A directory entry: a file with a name, or a directory with a name and children.
Child order models the (arbitrary but fixed) order `os.scandir` reports names in. -/
inductive Entry : Type where
  | file (name : String) : Entry
  | dir (name : String) (children : List Entry) : Entry

/-- Name of an entry. -/
def entryName : Entry → String
  | .file n => n
  | .dir n _ => n

/-- Names of the directory children, in order (the `dirnames` of an `os.walk` row). -/
def dirNames : List Entry → List String
  | [] => []
  | .file _ :: rest => dirNames rest
  | .dir n _ :: rest => n :: dirNames rest

/-- Names of the file children, in order (the `filenames` of an `os.walk` row). -/
def fileNames : List Entry → List String
  | [] => []
  | .file n :: rest => n :: fileNames rest
  | .dir _ _ :: rest => fileNames rest

/-- All child names in child order. -/
def childNames (cs : List Entry) : List String := cs.map entryName

/-- Whether a forest contains at least one file anywhere (a descendant file). -/
def hasDescFile : List Entry → Bool
  | [] => false
  | .file _ :: _ => true
  | .dir _ cs :: rest => hasDescFile cs || hasDescFile rest

/-- Python `os.path.join(a, b)` for a relative second component `b` (no leading
separator): returns `b` when `a` is empty, else `a ++ "/" ++ b`; in particular
`os.path.join(a, "")` is `a ++ "/"` for non-empty `a`. -/
def pyJoin (a b : String) : String := if a = "" then b else a ++ "/" ++ b

/-- One `os.walk` row: the dirpath relative to the walked root (empty string for
the root itself), the dirnames and the filenames. -/
abbrev Row := String × List String × List String

mutual
/-- Rows `os.walk` yields for one child entry of a directory whose relative path is
`rel`: nothing for a file; for a subdirectory, its own row placed before (topdown)
or after (bottom-up) the rows of its subtree. -/
def walkEntry (td : Bool) (rel : String) : Entry → List Row
  | .file _ => []
  | .dir n cs =>
    if td then (pyJoin rel n, dirNames cs, fileNames cs) :: walkList td (pyJoin rel n) cs
    else walkList td (pyJoin rel n) cs ++ [(pyJoin rel n, dirNames cs, fileNames cs)]

/-- Rows `os.walk` yields for the children of a directory at relative path `rel`,
visiting the children in order. -/
def walkList (td : Bool) (rel : String) : List Entry → List Row
  | [] => []
  | e :: rest => walkEntry td rel e ++ walkList td rel rest
end

/-- All rows of `os.walk(root)` where `cs` are the children of the root: the root's
own row (relative path `""`) first when topdown, last when bottom-up. -/
def walkRoot (td : Bool) (cs : List Entry) : List Row :=
  if td then ("", dirNames cs, fileNames cs) :: walkList td "" cs
  else walkList td "" cs ++ [("", dirNames cs, fileNames cs)]

/-- A filesystem: maps a root path string to the children of that directory, or
`none` when no such directory exists.  `os.walk` on a nonexistent path silently
yields no rows (its default `onerror` swallows the scandir error). -/
abbrev FS := String → Option (List Entry)

/-- Rows of `os.walk(d)` against the filesystem `fs`. -/
def walkOf (fs : FS) (d : String) (td : Bool) : List Row :=
  match fs d with
  | none => []
  | some cs => walkRoot td cs

/-! ## Strings: basename and substring containment -/

/-- Python `in` on lists of characters: `t` occurs contiguously in `s`. -/
def listInfix (t : List Char) : List Char → Bool
  | [] => t.isEmpty
  | c :: rest => t.isPrefixOf (c :: rest) || listInfix t rest

/-- Python `t in s` for strings: substring containment. -/
def isSubstr (t s : String) : Bool := listInfix t.data s.data

/-- Python `s.startswith(p)`. -/
def pyStartsWith (s p : String) : Bool := p.data.isPrefixOf s.data

/-- Final path component: the characters after the last separator.  This is
`os.path.basename(Path(p))` for the clean, already-joined paths the walkers build
(on such paths the `Path` constructor's normalisation is the identity). -/
def pyBasename (s : String) : String :=
  String.mk ((s.data.reverse.takeWhile (fun c => c != '/')).reverse)

/-- A name is good when it contains no path separator (true of every real
directory-entry name). -/
def goodName (s : String) : Bool := s.data.all (fun c => c != '/')

mutual
/-- Every name in the entry and below is separator-free. -/
def goodEntry : Entry → Bool
  | .file n => goodName n
  | .dir n cs => goodName n && goodNames cs

/-- Every name in the forest is separator-free. -/
def goodNames : List Entry → Bool
  | [] => true
  | e :: rest => goodEntry e && goodNames rest
end

/-! ## PathFilters (spec-modelled) -/

/-- Modelled from the spec: `dirutility/walk/filter.py` (class PathFilters) is not
under src/.  Fields follow the spec's FilterSet data model (section 3): include and
exclude substring terms (empty list models Python None), minimum and maximum level
(`none` models the `math.inf` default), and the non-empty-folders flag. -/
structure PathFilters where
  to_include : List String
  to_exclude : List String
  min_level : Nat
  max_level : Option Nat
  non_empty_folders : Bool

/-- Modelled from the spec: PathFilters.get_level, the depth-lookup function of
`dirutility/walk/filter.py` (not under src/).  Spec section 4.1: it "counts
path-separator-delimited segments"; the glossary confirms level is a segment count,
the empty string (the root itself) is level 0, and the worked example in section 8
places `a/b` at level 2.  So: 0 for the empty string, else separator count plus one. -/
def get_level (p : String) : Nat := if p = "" then 0 else p.data.count '/' + 1

/-- Modelled from the spec: PathFilters.validate of `dirutility/walk/filter.py`
(not under src/).  Spec section 4.1: reject when the level is outside
[minLevel, maxLevel]; reject when any exclude term is a substring of the final
component; reject when includeTerms is non-empty and no include term is a substring
of the final component; otherwise accept. -/
def validate (f : PathFilters) (p : String) : Bool :=
  decide (f.min_level ≤ get_level p) &&
  (match f.max_level with
   | none => true
   | some m => decide (get_level p ≤ m)) &&
  !(f.to_exclude.any (fun t => isSubstr t (pyBasename p))) &&
  (f.to_include.isEmpty || f.to_include.any (fun t => isSubstr t (pyBasename p)))

/-! ## Crawler (src/dirutility/walk/crawler.py) -/

/-- Python exceptions the embedded code can raise. -/
inductive PyErr : Type where
  | attributeError : PyErr
  | typeError : PyErr
  | indexError : PyErr
deriving DecidableEq

/-- Crawler.add_path: `_add_filepath_absolute` joins the originating root directory
onto the path when full_paths is set, `_add_filepath_relative` keeps the path as is
(crawler.py lines 30-34). -/
def addPath (fullPaths : Bool) (directory name : String) : String :=
  if fullPaths then pyJoin directory name else name

/-- Body of the per-row work of Crawler.filter (crawler.py lines 67-78): the row's
relative dirpath is validated; when non_empty_folders is set and the dirpath's level
equals max_level the dirpath itself is added; otherwise each filename is joined onto
the dirpath and added when the joined path validates. -/
def processRow (f : PathFilters) (fullPaths : Bool) (d : String) : Row → List String :=
  fun r =>
    match r with
    | (rel, _, files) =>
      if validate f rel then
        if f.non_empty_folders && f.max_level == some (get_level rel) then
          [addPath fullPaths d rel]
        else
          files.filterMap (fun fn =>
            if validate f (pyJoin rel fn) then some (addPath fullPaths d (pyJoin rel fn))
            else none)
      else []

/-- Crawler.filter (crawler.py lines 57-78): for each root directory, walk it and
process every yielded row.  The dirpath yielded by `os.walk` is first cut down to a
root-relative path (line 68, `root[len(str(directory)) + 1:]`), which `walkOf`
already produces. -/
def crawlerFilter (fs : FS) (dirs : List String) (f : PathFilters)
    (fullPaths td : Bool) : List String :=
  dirs.flatMap (fun d => (walkOf fs d td).flatMap (processRow f fullPaths d))

/-- Crawler.encompass (crawler.py lines 36-55).  It is only ever reached when
`self.filters` is the Boolean `False` (crawler.py lines 19-22), yet its loop body
reads `self.filters.non_empty_folders` (line 49), which raises AttributeError on a
bool.  So: the first yielded row of any root raises; when every root yields no rows
(all roots nonexistent) the loops finish and the collected list stays empty. -/
def crawlerEncompass (fs : FS) (td : Bool) : List String → Except PyErr (List String)
  | [] => .ok []
  | d :: rest =>
    match walkOf fs d td with
    | [] => crawlerEncompass fs td rest
    | _ :: _ => .error .attributeError

/-- Crawler construction plus the `crawler()` call of DirPaths.walk (walk.py line
99).  The constructor (crawler.py lines 19-22) dispatches on the truthiness of
filters: a PathFilters object runs `filter()`, the Boolean `False` runs
`encompass()`.  The `crawler()` accessor itself lives in the absent
`dirutility/walk/sequential.py`; per its call site it returns the collected
filepaths list. -/
def crawlerRun (fs : FS) (dirs : List String) (filters : Option PathFilters)
    (fullPaths td : Bool) : Except PyErr (List String) :=
  match filters with
  | some f => .ok (crawlerFilter fs dirs f fullPaths td)
  | none => crawlerEncompass fs td dirs

/-! ## DirPaths (src/dirutility/walk/walk.py) -/

/-- The `directory` argument of DirPaths: a single path string or a list of path
strings. -/
inductive PyDirArg : Type where
  | str (s : String) : PyDirArg
  | list (ss : List String) : PyDirArg

/-- A single-quote character, written by code point to keep the sources plain. -/
def quote1 : String := String.mk [Char.ofNat 39]

/-- Python `str` of a list of strings: the repr, e.g. a bracketed, comma-separated
list of quoted elements. -/
def pyReprList (ss : List String) : String :=
  "[" ++ String.intercalate ", " (ss.map (fun s => quote1 ++ s ++ quote1)) ++ "]"

/-- DirPaths.__init__ lines 70-74: `self.directory = [str(directory)]` inside a
`try` whose `except TypeError` branch would stringify the elements — but `str` of a
list never raises TypeError, so a list argument is stringified whole (its Python
repr) and the except branch is dead code. -/
def dirPathsDirectory : PyDirArg → List String
  | .str s => [s]
  | .list ss => [pyReprList ss]

/-- DirPaths.__init__ lines 54-57: a PathFilters object is built when any of
to_include, to_exclude is truthy, or min_level differs from 0, or max_level differs
from infinity; otherwise `self.filters = False` (here `none`).  Note
non_empty_folders alone does not trigger construction.  The `filters` parameter
(an extra filters object forwarded verbatim) is not exercised by any claim and is
modelled as absent. -/
def dirPathsFilters (to_include to_exclude : List String) (min_level : Nat)
    (max_level : Option Nat) (non_empty_folders : Bool) : Option PathFilters :=
  if to_include ≠ [] ∨ to_exclude ≠ [] ∨ min_level ≠ 0 ∨ max_level ≠ none then
    some ⟨to_include, to_exclude, min_level, max_level, non_empty_folders⟩
  else none

/-- DirPaths.walk in sequential mode (walk.py lines 90-100 with parallelize False):
build the directory list and the filters in __init__, then dispatch to Crawler. -/
def dirPathsWalk (fs : FS) (directory : PyDirArg) (fullPaths td : Bool)
    (to_include to_exclude : List String) (min_level : Nat) (max_level : Option Nat)
    (non_empty_folders : Bool) : Except PyErr (List String) :=
  crawlerRun fs (dirPathsDirectory directory)
    (dirPathsFilters to_include to_exclude min_level max_level non_empty_folders)
    fullPaths td

/-! ## Legacy flat module (src/dirutility/walk.py) -/

/-- The dirpath `os.walk(d)` yields for the directory at root-relative path `rel`:
the root string itself for the root, else the join. -/
def dirpathOf (d rel : String) : String := if rel = "" then d else pyJoin d rel

/-- Loop body of the legacy DirPaths.walk (walk.py lines 61-69): for every row,
every filename not starting with a dot is joined onto the row's dirpath and
collected. -/
def oldWalkCollect (d : String) (td : Bool) (cs : List Entry) : List String :=
  (walkRoot td cs).flatMap (fun r =>
    r.2.2.filterMap (fun fn =>
      if pyStartsWith fn "." then none else some (pyJoin (dirpathOf d r.1) fn)))

/-- The include terms matching a path's basename. -/
def includeHits (inc : List String) (p : String) : List String :=
  inc.filter (fun t => isSubstr t (pyBasename p))

/-- Include step of the legacy _get_filepaths (walk.py lines 38-41): when
to_include is truthy, the comprehension keeps one copy of each path per matching
include term. -/
def applyInclude (inc : List String) (paths : List String) : List String :=
  match inc with
  | [] => paths
  | _ :: _ => paths.flatMap (fun p => (includeHits inc p).map (fun _ => p))

/-- Whether some exclude term is a substring of the path's basename. -/
def excludeHit (exc : List String) (p : String) : Bool :=
  exc.any (fun t => isSubstr t (pyBasename p))

/-- Exclude step of the legacy _get_filepaths (walk.py lines 42-46): when
to_exclude is truthy, the paths with a matching basename are collected and the
result is the set difference, materialised as a list.  Python set iteration order
is unspecified; the embedding fixes first-occurrence order, and every theorem about
this step is order-insensitive (membership or duplicate-freeness). -/
def applyExclude (exc : List String) (paths : List String) : List String :=
  match exc with
  | [] => paths
  | _ :: _ => (paths.filter (fun p => !excludeHit exc p)).dedup

/-- Legacy _get_filepaths (walk.py lines 36-52): include step, exclude step, then
the full-paths step, which resolves each path against the working directory
(`Path(p).absolute()`, modelled as a join onto `cwd`). -/
def oldGetFilepaths (inc exc : List String) (fullPaths : Bool) (cwd : String)
    (paths : List String) : List String :=
  let p2 := applyExclude exc (applyInclude inc paths)
  if fullPaths then p2.map (fun p => pyJoin cwd p) else p2

/-- Legacy DirPaths.walk (walk.py lines 54-69): collect non-hidden file paths from
the walk, then run _get_filepaths. -/
def oldWalkRun (d : String) (td : Bool) (cs : List Entry) (inc exc : List String)
    (fullPaths : Bool) (cwd : String) : List String :=
  oldGetFilepaths inc exc fullPaths cwd (oldWalkCollect d td cs)

/-! ## DirTree (src/dirutility/walk/walk.py, lines 126-178)

DirTree.get walks `os.walk(self.directory)` (topdown, the default) and for each
yielded path takes `folders = path[self.start:].split(os.sep)` — the path segments
from the root's own name down.  With clean, separator-free names those segment
lists are exactly what `treeRowsTop` below produces. -/

/-- One DirTree walk row: the dirpath's segment list (root name included), the
dirnames and the filenames. -/
abbrev SegRow := List String × List String × List String

mutual
/-- Segment rows for one child entry under the segment path `segs` (topdown, as
`os.walk`'s default). -/
def treeRowsEntry (segs : List String) : Entry → List SegRow
  | .file _ => []
  | .dir n cs =>
    (segs ++ [n], dirNames cs, fileNames cs) :: treeRowsList (segs ++ [n]) cs

/-- Segment rows for the children of the directory at segment path `segs`. -/
def treeRowsList (segs : List String) : List Entry → List SegRow
  | [] => []
  | e :: rest => treeRowsEntry segs e ++ treeRowsList segs rest
end

/-- All DirTree walk rows of a root named `rootName` with children `cs`: the root's
row (segment list `[rootName]`) followed, topdown, by the rows below it. -/
def treeRowsTop (rootName : String) (cs : List Entry) : List SegRow :=
  ([rootName], dirNames cs, fileNames cs) :: treeRowsList [rootName] cs

/-- A Python dict as DirTree builds it: insertion-ordered entries mapping a name to
None (a file) or to a nested dict (a directory). -/
inductive PyDict : Type where
  | mk (entries : List (String × Option PyDict)) : PyDict

/-- The entry list of a dict. -/
def PyDict.entries : PyDict → List (String × Option PyDict)
  | .mk es => es

/-- Python `dict.get(es, k)` as used by DirTree (returns the value, or None when
the key is absent — indistinguishable here from a stored None). -/
def lookupEntry : List (String × Option PyDict) → String → Option (Option PyDict)
  | [], _ => none
  | (k, v) :: rest, key => if k = key then some v else lookupEntry rest key

/-- Python `d[k] = v`: overwrite in place keeping the key's position, else append. -/
def setEntry : List (String × Option PyDict) → String → Option PyDict →
    List (String × Option PyDict)
  | [], key, v => [(key, v)]
  | (k, w) :: rest, key, v =>
    if k = key then (k, v) :: rest else (k, w) :: setEntry rest key v

/-- DirTree.get's insertion at a nested location (walk.py lines 172-173 and
176-177): `parent = reduce(dict.get, folders[:-1], tree)` followed by
`parent[folders[-1]] = files`.  `dict.get` yields None for a missing key, and a
None (or a file's None value) met during the reduction makes the next `dict.get`
call — or the final subscript assignment — raise TypeError; descending through
dict values reaches the nested dict, and the assignment mutates it in place, which
the pure embedding renders by rebuilding the spine. -/
def setAtPath : List String → PyDict → String → Option PyDict → Except PyErr PyDict
  | [], d, key, v => .ok (.mk (setEntry d.entries key v))
  | s :: rest, d, key, v =>
    match lookupEntry d.entries s with
    | some (some child) =>
      match setAtPath rest child key v with
      | .ok child2 => .ok (.mk (setEntry d.entries s (some child2)))
      | .error e => .error e
    | _ => .error .typeError

/-- Python `dict.fromkeys(files)`: each file name mapped to None, in order. -/
def fromKeys (files : List String) : PyDict :=
  .mk (files.map (fun f => (f, none)))

/-- One insertion of DirTree.get: `folders[-1]` on an empty list would raise
IndexError (never reached: every row's segment list is non-empty); otherwise set
the last segment to the files dict under the leading segments. -/
def insertRow (folders : List String) (files : List String) (acc : PyDict) :
    Except PyErr PyDict :=
  match folders.getLast? with
  | none => .error .indexError
  | some last => setAtPath folders.dropLast acc last (some (fromKeys files))

/-- DirTree._filter (walk.py lines 149-160) on folder rules.  A per-level rule is
the dict `branches[index]['folders']`, modelled as an association list (the empty
list models a falsy rule: None or an empty dict).  For each segment index the code
looks the rule up; a falsy rule skips the level; a truthy rule binds
`exclude = filters.get` and `include = filters.get` — the *bound method* `dict.get`,
not a lookup — and then evaluates `folders[index] in exclude`, a membership test on
a method, which raises TypeError.  An index beyond the branches list raises
IndexError.  The traversal is in index lockstep over the segment list. -/
def dirTreeFilterAux : List (List (String × List String)) → List String →
    Except PyErr Bool
  | _, [] => .ok true
  | [], _ :: _ => .error .indexError
  | rule :: brest, _ :: frest =>
    match rule with
    | [] => dirTreeFilterAux brest frest
    | _ :: _ => .error .typeError

/-- Loop of DirTree.get (walk.py lines 162-178) over the walk rows.  `branches`
models `self.branches` with the empty list for the falsy cases (None or an empty
list): falsy branches insert every row; truthy branches run _filter on the row's
segments first and insert only on True, propagating its exceptions. -/
def dirTreeGetRows (branches : List (List (String × List String))) :
    List SegRow → PyDict → Except PyErr PyDict
  | [], acc => .ok acc
  | (folders, _, files) :: rest, acc =>
    match branches with
    | [] =>
      match insertRow folders files acc with
      | .ok acc2 => dirTreeGetRows branches rest acc2
      | .error e => .error e
    | _ :: _ =>
      match dirTreeFilterAux branches folders with
      | .error e => .error e
      | .ok true =>
        match insertRow folders files acc with
        | .ok acc2 => dirTreeGetRows branches rest acc2
        | .error e => .error e
      | .ok false => dirTreeGetRows branches rest acc

/-- DirTree construction and get (walk.py lines 126-137, 162-178) for a root whose
last path component is `rootName` and whose children are `cs`. -/
def dirTreeGet (rootName : String) (cs : List Entry)
    (branches : List (List (String × List String))) : Except PyErr PyDict :=
  dirTreeGetRows branches (treeRowsTop rootName cs) (.mk [])

/-- File children as dict entries, each mapped to None, in order. -/
def filesEntries : List Entry → List (String × Option PyDict)
  | [] => []
  | .file n :: rest => (n, none) :: filesEntries rest
  | .dir _ _ :: rest => filesEntries rest

/-- Directory children as dict entries, each mapped to its own finished mapping
(files first, then subdirectories, mirroring the order DirTree.get inserts in). -/
def dirsEntries : List Entry → List (String × Option PyDict)
  | [] => []
  | .file _ :: rest => dirsEntries rest
  | .dir n cs :: rest =>
    (n, some (.mk (filesEntries cs ++ dirsEntries cs))) :: dirsEntries rest

/-- The finished mapping of a directory's contents: each file name to None, each
subdirectory name to the mapping of its contents. -/
def treeEntries (cs : List Entry) : List (String × Option PyDict) :=
  filesEntries cs ++ dirsEntries cs

mutual
/-- Well-formedness of one entry: below a directory, child names are pairwise
distinct at every level (true of any real filesystem). -/
def wfEntry : Entry → Bool
  | .file _ => true
  | .dir _ cs => decide (childNames cs).Nodup && wfForest cs

/-- Well-formedness of every entry of a forest. -/
def wfForest : List Entry → Bool
  | [] => true
  | e :: rest => wfEntry e && wfForest rest
end

/-- Well-formedness of a directory's children: distinct names at this level and in
every directory below. -/
def wfTree (cs : List Entry) : Bool :=
  decide (childNames cs).Nodup && wfForest cs

/-! ## Sprinter (spec-modelled) -/

/-- Size-k contiguous chunks of a list (static up-front partition of work units). -/
def chunksOfSize (k : Nat) : List String → List (List String)
  | [] => []
  | x :: xs => (x :: xs.take (k - 1)) :: chunksOfSize k (xs.drop (k - 1))
  termination_by xs => xs.length
  decreasing_by simp; omega

/-- Modelled from the spec: the per-row work of a Sprinter worker when no FilterSet
is supplied — section 4.2: "emit every file path found" (each filename joined onto
the row's root-relative dirpath). -/
def noFilterRow (fullPaths : Bool) (d : String) : Row → List String :=
  fun r =>
    match r with
    | (rel, _, files) => files.map (fun fn => addPath fullPaths d (pyJoin rel fn))

/-- Modelled from the spec: one Sprinter worker's scan over its assigned rows —
section 4.3: "each worker executes the same per-entry algorithm as section 4.2 in
isolation against its assigned subtree(s)". -/
def workerRows (filters : Option PathFilters) (fullPaths : Bool) (d : String)
    (rows : List Row) : List String :=
  match filters with
  | some f => rows.flatMap (processRow f fullPaths d)
  | none => rows.flatMap (noFilterRow fullPaths d)

/-- Modelled from the spec: Sprinter.sprinter of `dirutility/walk/multiprocess.py`
(not under src/), per spec section 4.3.  The list of root directories is statically
partitioned into at most `pool` contiguous units, each scanned by a worker running
the section 4.2 per-entry algorithm; with a single root, partitioning is by its
immediate child subdirectories, each subtree scanned root-relative (the root's own
row forms the remaining unit, as the contract's required equivalence with the
sequential traverser demands); the per-worker results are merged into one
duplicate-free collection. -/
def sprinterUnits (fs : FS) (dirs : List String) (filters : Option PathFilters)
    (fullPaths : Bool) (pool : Nat) : List String :=
  match dirs with
  | [] => []
  | [d] =>
    match fs d with
    | none => []
    | some cs =>
      workerRows filters fullPaths d [("", dirNames cs, fileNames cs)] ++
      cs.flatMap (fun e => workerRows filters fullPaths d (walkEntry true "" e))
  | d1 :: d2 :: ds =>
    (chunksOfSize (((d1 :: d2 :: ds).length + pool - 1) / pool)
        (d1 :: d2 :: ds)).flatMap
      (fun unit => unit.flatMap (fun d =>
        workerRows filters fullPaths d (walkOf fs d true)))

/-- Modelled from the spec: the merge step — all per-worker results combined into
one duplicate-free collection. -/
def sprinterRun (fs : FS) (dirs : List String) (filters : Option PathFilters)
    (fullPaths : Bool) (pool : Nat) : List String :=
  (sprinterUnits fs dirs filters fullPaths pool).dedup

/-! ## Concrete fixtures used by the counterexamples and witnesses -/

/-- An existing root `r` holding one ordinary file. -/
def fsC2 : FS := fun d => if d = "r" then some [.file "data.txt"] else none

/-- Two existing roots `a` and `b`, one file each. -/
def fsC3 : FS :=
  fun d =>
    if d = "a" then some [.file "fa.txt"]
    else if d = "b" then some [.file "fb.txt"]
    else none

/-- A filter configuration that accepts everything up to level 9. -/
def fC3 : PathFilters := ⟨[], [], 0, some 9, false⟩

/-- An existing root `r` holding one hidden file. -/
def fsC4 : FS := fun d => if d = "r" then some [.file ".secret"] else none

/-- A filter configuration with no terms and levels 0 to 5. -/
def fC4 : PathFilters := ⟨[], [], 0, some 5, false⟩

/-- The spec's non-empty-folders example tree: `a/b/file.txt` and an empty `a/c`. -/
def csC5 : List Entry := [.dir "a" [.dir "b" [.file "file.txt"], .dir "c" []]]

/-- The example tree mounted at root `r`. -/
def fsC5 : FS := fun d => if d = "r" then some csC5 else none

/-- Non-empty-folders mode with max_level 2. -/
def fC5 : PathFilters := ⟨[], [], 0, some 2, true⟩

/-- The spec's include/exclude example: `app.log`, `tmp.log`, `notes.txt`. -/
def treeC6 : List Entry := [.file "app.log", .file "tmp.log", .file "notes.txt"]

/-- A root holding one file matched by two include terms. -/
def treeC7 : List Entry := [.file "app.log"]

/-- A filesystem with no directories at all. -/
def fsNone : FS := fun _ => none

/-- A plain filter configuration used against the nonexistent root. -/
def fC9 : PathFilters := ⟨[], [], 0, some 3, false⟩

/-- An existing root `r` with one file, for the no-filters comparison. -/
def fsC1 : FS := fun d => if d = "r" then some [.file "f.txt"] else none

/-- A root with a top-level file and a subdirectory. -/
def csC1 : List Entry := [.file "top.txt", .dir "sub" [.file "in.txt"]]

/-- Two roots: `r` with a subtree, `s` flat. -/
def fsC1w : FS :=
  fun d =>
    if d = "r" then some csC1
    else if d = "s" then some [.file "s.txt"]
    else none

/-- A wide filter configuration for the equivalence witness. -/
def fC1 : PathFilters := ⟨[], [], 0, some 9, false⟩

/-- The spec's TreeBuilder example: root containing `x/y.txt` and `x/z/w.txt`. -/
def csC10 : List Entry := [.dir "x" [.file "y.txt", .dir "z" [.file "w.txt"]]]

/-- A branches argument with one truthy folders rule at level 0. -/
def branchesC8 : List (List (String × List String)) := [[("exclude", ["x"])]]

/-- A root with one ordinary and one hidden file, for the legacy-walker witness. -/
def csC4w : List Entry := [.file "ok.txt", .file ".hidden"]

/-! ## Theorems -/

/-- Claim C2.  The claim says a walk with no filter options completes normally and
returns every file path.  The code disagrees: with no filter options DirPaths sets
`self.filters = False` (walk.py lines 54-57), Crawler dispatches to `encompass`
(crawler.py lines 19-22), and the first yielded row evaluates
`self.filters.non_empty_folders` on the Boolean False (crawler.py line 49), raising
AttributeError.  On an existing root with a single ordinary file, the walk raises
instead of returning the file. -/
theorem c2_encompass_attribute_error :
    dirPathsWalk fsC2 (.str "r") false true [] [] 0 none false =
      .error .attributeError := by
  rfl

/-- Claim C3.  The claim says a list of several roots is walked root by root.  The
code disagrees: `str(directory)` of a list never raises TypeError, so
DirPaths.__init__ (walk.py lines 70-74) turns the list into the single bogus root
string given by its Python repr; walking it finds nothing.  Conjuncts: the list
argument collapses to the repr string; the walk over the two existing roots `a`
and `b` (each holding a file) returns nothing; crawling the two roots directly —
what the dead `except TypeError` branch was meant to arrange — would have found
both files. -/
theorem c3_list_root_stringified :
    dirPathsDirectory (.list ["a", "b"]) = [pyReprList ["a", "b"]] ∧
    dirPathsWalk fsC3 (.list ["a", "b"]) false true [] [] 0 (some 9) false =
      .ok [] ∧
    crawlerRun fsC3 ["a", "b"] (some fC3) false true =
      .ok ["fa.txt", "fb.txt"] := by
  exact ⟨rfl, rfl, rfl⟩

/-- Claim C8.  The claim says branch rules reject or accept a directory segment by
segment.  The code disagrees: DirTree._filter (walk.py lines 149-160) binds
`exclude` and `include` to the bound method `filters.get` and then evaluates
`folders[index] in exclude`, a membership test against a method, which raises
TypeError whenever the level's folders rule is truthy.  With a root `r` holding
one subdirectory and a single non-empty level-0 rule, tree building raises instead
of filtering. -/
theorem c8_branch_filter_type_error :
    dirTreeGet "r" [.dir "a" []] branchesC8 = .error .typeError := by
  rfl

/-- Claim C9, counterexample.  The claim says a sole nonexistent root raises
RootNotFound.  The code has no such error: `os.walk` on a missing path silently
yields nothing (crawler.py lines 43-48 iterate over it without any existence
check), so the run returns an empty list normally. -/
theorem c9_no_root_error_cex :
    crawlerRun fsNone ["missing"] (some fC9) false true = .ok [] := by
  rfl

/-- Claim C9, amended.  When the sole supplied root does not exist, the traversal
silently returns an empty result — no error of any kind is raised, with or without
filters. -/
theorem c9_missing_root_silent (fs : FS) (d : String)
    (filters : Option PathFilters) (fullPaths td : Bool) (h : fs d = none) :
    crawlerRun fs [d] filters fullPaths td = .ok [] := by
  cases filters with
  | some f => simp [crawlerRun, crawlerFilter, walkOf, h]
  | none => simp [crawlerRun, crawlerEncompass, walkOf, h]

/-- Claim C9, witness for the amended theorem at the concrete nonexistent root. -/
theorem c9_missing_root_silent_witness :
    fsNone "gone" = none ∧
    crawlerRun fsNone ["gone"] none false true = .ok [] :=
  ⟨rfl, c9_missing_root_silent fsNone "gone" none false true rfl⟩

/-- Claim C4, counterexample.  The claim says hidden entries never appear in any
traversal output.  The package engine disagrees: Crawler.filter (crawler.py lines
57-78) has no hidden-name check, and the spec-modelled PathFilters.validate tests
only levels and substring terms, so a hidden file in the root is emitted. -/
theorem c4_hidden_emitted_cex :
    crawlerRun fsC4 ["r"] (some fC4) false true = .ok [".secret"] ∧
    pyStartsWith ".secret" "." = true := by
  exact ⟨rfl, rfl⟩

/-- Claim C5, counterexample.  The claim says non-empty-folders mode with
maxLevel 2 on the tree holding `a/b/file.txt` and an empty `a/c` emits exactly
`a/b`.  The code disagrees: Crawler.filter (crawler.py lines 71-72) adds every
validated directory whose level equals max_level without ever consulting its
contents, so the empty `a/c` is emitted as well. -/
theorem c5_empty_dir_emitted_cex :
    crawlerRun fsC5 ["r"] (some fC5) false true = .ok ["a/b", "a/c"] ∧
    hasDescFile [Entry.dir "c" []] = false := by
  refine ⟨rfl, ?_⟩
  simp [hasDescFile]

/-- Claim C5, amended.  In non-empty-folders mode every visited directory whose
relative path validates and whose level equals max_level is emitted — whether or
not it contains any descendant file (and validating files of directories at other
levels are emitted as well, per Crawler.filter's else branch).  On the spec's
example tree with max_level 2 the output is exactly `a/b` and `a/c`. -/
theorem c5_maxlevel_dirs_amended :
    (∀ (fs : FS) (d : String) (f : PathFilters) (fp td : Bool) (r : Row),
      r ∈ walkOf fs d td → f.non_empty_folders = true →
      f.max_level = some (get_level r.1) → validate f r.1 = true →
      addPath fp d r.1 ∈ crawlerFilter fs [d] f fp td) ∧
    crawlerRun fsC5 ["r"] (some fC5) false true = .ok ["a/b", "a/c"] := by
  constructor
  · intro fs d f fp td r hr hne hmax hval
    simp only [crawlerFilter, List.mem_flatMap]
    refine ⟨d, by simp, r, hr, ?_⟩
    obtain ⟨rel, dns, fls⟩ := r
    simp only at hmax hval ⊢
    simp [processRow, hval, hne, hmax]
  · rfl

/-- Claim C5, witness for the amended theorem: the empty directory `a/c` sits at
level 2, validates, and is emitted. -/
theorem c5_maxlevel_dirs_amended_witness :
    (("a/c", [], []) : Row) ∈ walkOf fsC5 "r" true ∧
    fC5.non_empty_folders = true ∧
    fC5.max_level = some (get_level "a/c") ∧
    validate fC5 "a/c" = true ∧
    addPath false "r" "a/c" ∈ crawlerFilter fsC5 ["r"] fC5 false true :=
  ⟨by decide, rfl, rfl, rfl,
   c5_maxlevel_dirs_amended.1 fsC5 "r" fC5 false true ("a/c", [], [])
     (by decide) rfl rfl rfl⟩

/-- Mutual induction over entries and forests, by structural size. -/
theorem entry_mutual_ind (P : Entry → Prop) (Q : List Entry → Prop)
    (hfile : ∀ n, P (.file n))
    (hdir : ∀ n cs, Q cs → P (.dir n cs))
    (hnil : Q [])
    (hcons : ∀ e rest, P e → Q rest → Q (e :: rest)) :
    (∀ e, P e) ∧ ∀ cs, Q cs := by
  have key : ∀ k, (∀ e : Entry, sizeOf e ≤ k → P e) ∧
      ∀ cs : List Entry, sizeOf cs ≤ k → Q cs := by
    intro k
    induction k with
    | zero =>
      constructor
      · intro e he; exfalso; cases e <;> simp at he
      · intro cs hcs; exfalso; cases cs <;> simp at hcs
    | succ k ih =>
      constructor
      · intro e he
        cases e with
        | file n => exact hfile n
        | dir n cs =>
          refine hdir n cs (ih.2 cs ?_)
          have : sizeOf (Entry.dir n cs) = 1 + sizeOf n + sizeOf cs := by simp
          omega
      · intro cs hcs
        cases cs with
        | nil => exact hnil
        | cons e rest =>
          have : sizeOf (e :: rest) = 1 + sizeOf e + sizeOf rest := by simp
          exact hcons e rest (ih.1 e (by omega)) (ih.2 rest (by omega))
  exact ⟨fun e => (key (sizeOf e)).1 e le_rfl, fun cs => (key (sizeOf cs)).2 cs le_rfl⟩

/-- Membership in the include step: a path survives exactly when it was present
and, if include terms were given, some term matches its basename; it may survive
several times. -/
theorem mem_applyInclude {inc paths : List String} {p : String} :
    p ∈ applyInclude inc paths ↔
      p ∈ paths ∧ (inc ≠ [] → ∃ t ∈ inc, isSubstr t (pyBasename p) = true) := by
  cases inc with
  | nil => simp [applyInclude]
  | cons t ts =>
    simp only [applyInclude, List.mem_flatMap, List.mem_map, includeHits,
      List.mem_filter]
    constructor
    · rintro ⟨q, hq, x, ⟨hx, hsub⟩, rfl⟩
      exact ⟨hq, fun _ => ⟨x, hx, hsub⟩⟩
    · rintro ⟨hp, h⟩
      obtain ⟨x, hx, hsub⟩ := h (by simp)
      exact ⟨p, hp, x, ⟨hx, hsub⟩, rfl⟩

/-- Membership in the exclude step: a path survives exactly when it was present
and no exclude term matches its basename. -/
theorem mem_applyExclude {exc paths : List String} {p : String} :
    p ∈ applyExclude exc paths ↔
      p ∈ paths ∧ ¬ ∃ t ∈ exc, isSubstr t (pyBasename p) = true := by
  cases exc with
  | nil => simp [applyExclude]
  | cons t ts =>
    simp [applyExclude, excludeHit, List.any_eq_true]

/-- Membership in the whole legacy filter step, relative-path mode. -/
theorem mem_oldGetFilepaths_flat {inc exc paths : List String} {cwd p : String} :
    p ∈ oldGetFilepaths inc exc false cwd paths ↔
      p ∈ paths ∧
      (¬ ∃ t ∈ exc, isSubstr t (pyBasename p) = true) ∧
      (inc ≠ [] → ∃ t ∈ inc, isSubstr t (pyBasename p) = true) := by
  simp only [oldGetFilepaths, if_neg Bool.false_ne_true, mem_applyExclude,
    mem_applyInclude]
  tauto

/-- Claim C6.  The filter decision of the legacy module examines the final path
component: a path is returned exactly when it was collected, no exclude term is a
substring of its final component, and — when include terms were given — some
include term is a substring of it.  On the spec's example (root with `app.log`,
`tmp.log`, `notes.txt`; include `.log`, exclude `tmp`), the flat-mode output is
exactly `app.log`. -/
theorem c6_final_component_decision :
    (∀ (inc exc paths : List String) (cwd p : String),
      p ∈ oldGetFilepaths inc exc false cwd paths ↔
        p ∈ paths ∧
        (¬ ∃ t ∈ exc, isSubstr t (pyBasename p) = true) ∧
        (inc ≠ [] → ∃ t ∈ inc, isSubstr t (pyBasename p) = true)) ∧
    oldWalkRun "" true treeC6 [".log"] ["tmp"] false "" = ["app.log"] := by
  exact ⟨fun inc exc paths cwd p => mem_oldGetFilepaths_flat, rfl⟩

/-- Claim C7, counterexample.  The claim says every traversal result is
duplicate-free.  The legacy include step disagrees: the comprehension in
_get_filepaths (walk.py lines 38-41) emits one copy of a path per matching include
term, and with no exclude terms nothing ever deduplicates, so a file matched by two
include terms is returned twice. -/
theorem c7_duplicate_output_cex :
    ¬ (oldWalkRun "" true treeC7 ["a", "p"] [] false "").Nodup := by
  have h : oldWalkRun "" true treeC7 ["a", "p"] [] false "" =
      ["app.log", "app.log"] := rfl
  rw [h]
  decide

/-- Claim C7, amended.  The legacy result is duplicate-free whenever exclude terms
are supplied — the set-difference step materialises a set; with include terms only,
a path appears once per matching include term. -/
theorem c7_exclude_dedups (d : String) (td : Bool) (cs : List Entry)
    (inc exc : List String) (cwd : String) (h : exc ≠ []) :
    (oldWalkRun d td cs inc exc false cwd).Nodup := by
  cases exc with
  | nil => exact absurd rfl h
  | cons t ts =>
    simp only [oldWalkRun, oldGetFilepaths, if_neg Bool.false_ne_true, applyExclude]
    exact List.nodup_dedup _

/-- Claim C7, witness: with the exclude term `tmp` present the example run is
duplicate-free. -/
theorem c7_exclude_dedups_witness :
    (["tmp"] : List String) ≠ [] ∧
    (oldWalkRun "" true treeC6 [".log"] ["tmp"] false "").Nodup :=
  ⟨by decide, c7_exclude_dedups "" true treeC6 [".log"] ["tmp"] "" (by decide)⟩

/-- Characters of a separator-free name all differ from the separator. -/
theorem goodName_chars {fn : String} (h : goodName fn = true) :
    ∀ x ∈ fn.data, (x != '/') = true := by
  intro x hx
  exact List.all_eq_true.mp h x hx

/-- takeWhile over a list whose elements all satisfy the test keeps the list. -/
theorem takeWhile_all {p : Char → Bool} {l : List Char}
    (h : ∀ x ∈ l, p x = true) : l.takeWhile p = l := by
  induction l with
  | nil => rfl
  | cons a as ih =>
    rw [List.takeWhile_cons, if_pos (h a (by simp))]
    rw [ih fun x hx => h x (by simp [hx])]

/-- takeWhile stops exactly at the first failing element. -/
theorem takeWhile_append_eq {p : Char → Bool} {xs ys : List Char} {y : Char}
    (hxs : ∀ x ∈ xs, p x = true) (hy : p y = false) :
    (xs ++ y :: ys).takeWhile p = xs := by
  induction xs with
  | nil => simp [List.takeWhile_cons, hy]
  | cons a as ih =>
    rw [List.cons_append, List.takeWhile_cons, if_pos (hxs a (by simp))]
    rw [ih fun x hx => hxs x (by simp [hx])]

/-- The basename of a separator-free name is the name itself. -/
theorem pyBasename_self {fn : String} (h : goodName fn = true) :
    pyBasename fn = fn := by
  unfold pyBasename
  have hall : ∀ x ∈ fn.data.reverse, (x != '/') = true := by
    intro x hx
    exact goodName_chars h x (List.mem_reverse.mp hx)
  rw [takeWhile_all hall, List.reverse_reverse]

/-- Joining a separator-free name onto any directory leaves it as the basename. -/
theorem pyBasename_pyJoin {a fn : String} (h : goodName fn = true) :
    pyBasename (pyJoin a fn) = fn := by
  unfold pyJoin
  by_cases ha : a = ""
  · rw [if_pos ha]
    exact pyBasename_self h
  · rw [if_neg ha]
    unfold pyBasename
    have hdata : (a ++ "/" ++ fn).data = a.data ++ '/' :: fn.data := by
      rw [String.data_append, String.data_append]
      simp
    have hrev : (a.data ++ '/' :: fn.data).reverse =
        fn.data.reverse ++ '/' :: a.data.reverse := by
      simp
    have hall : ∀ x ∈ fn.data.reverse, (x != '/') = true := by
      intro x hx
      exact goodName_chars h x (List.mem_reverse.mp hx)
    rw [hdata, hrev, takeWhile_append_eq hall (by decide), List.reverse_reverse]

/-- Every file name of a good forest is separator-free. -/
theorem fileNames_good : ∀ (cs : List Entry), goodNames cs = true →
    ∀ fn ∈ fileNames cs, goodName fn = true := by
  intro cs
  induction cs with
  | nil => intro _ fn hfn; simp [fileNames] at hfn
  | cons e rest ih =>
    intro hg fn hfn
    have h2 : goodEntry e = true ∧ goodNames rest = true := by
      simpa [goodNames, Bool.and_eq_true] using hg
    cases e with
    | file n =>
      have : fn = n ∨ fn ∈ fileNames rest := by simpa [fileNames] using hfn
      cases this with
      | inl h => subst h; simpa [goodEntry] using h2.1
      | inr h => exact ih h2.2 fn h
    | dir n cs2 =>
      exact ih h2.2 fn (by simpa [fileNames] using hfn)

/-- Every filename of every row a walk yields over a good forest is
separator-free. -/
theorem walk_files_good (td : Bool) :
    (∀ e : Entry, ∀ rel r, goodEntry e = true → r ∈ walkEntry td rel e →
        ∀ fn ∈ r.2.2, goodName fn = true) ∧
    ∀ cs : List Entry, ∀ rel r, goodNames cs = true → r ∈ walkList td rel cs →
        ∀ fn ∈ r.2.2, goodName fn = true := by
  apply entry_mutual_ind
  · intro n rel r _ hr
    simp [walkEntry] at hr
  · intro n cs ih rel r hgood hr fn hfn
    have hcs : goodNames cs = true := by
      have := by simpa [goodEntry, Bool.and_eq_true] using hgood
      exact this.2
    have hsplit : r = (pyJoin rel n, dirNames cs, fileNames cs) ∨
        r ∈ walkList td (pyJoin rel n) cs := by
      cases td <;> simp [walkEntry] at hr <;> tauto
    cases hsplit with
    | inl h => subst h; exact fileNames_good cs hcs fn hfn
    | inr h => exact ih (pyJoin rel n) r hcs h fn hfn
  · intro rel r hg hr
    simp [walkList] at hr
  · intro e rest ihe ihrest rel r hgood hr fn hfn
    have h2 : goodEntry e = true ∧ goodNames rest = true := by
      simpa [goodNames, Bool.and_eq_true] using hgood
    have : r ∈ walkEntry td rel e ∨ r ∈ walkList td rel rest := by
      simpa [walkList] using hr
    cases this with
    | inl h => exact ihe rel r h2.1 h fn hfn
    | inr h => exact ihrest rel r h2.2 h fn hfn

/-- Every filename of every row of the full root walk is separator-free. -/
theorem walkRoot_files_good {td : Bool} {cs : List Entry}
    (hg : goodNames cs = true) :
    ∀ r ∈ walkRoot td cs, ∀ fn ∈ r.2.2, goodName fn = true := by
  intro r hr fn hfn
  have hsplit : r = ("", dirNames cs, fileNames cs) ∨ r ∈ walkList td "" cs := by
    cases td <;> simp [walkRoot] at hr <;> tauto
  cases hsplit with
  | inl h => subst h; exact fileNames_good cs hg fn hfn
  | inr h => exact (walk_files_good td).2 cs "" r hg h fn hfn

/-- A collected legacy path is a non-hidden filename joined onto its row's
dirpath. -/
theorem mem_oldWalkCollect {d : String} {td : Bool} {cs : List Entry} {p : String}
    (hp : p ∈ oldWalkCollect d td cs) :
    ∃ r ∈ walkRoot td cs, ∃ fn ∈ r.2.2, pyStartsWith fn "." = false ∧
      p = pyJoin (dirpathOf d r.1) fn := by
  simp only [oldWalkCollect, List.mem_flatMap, List.mem_filterMap] at hp
  obtain ⟨r, hr, fn, hfn, hop⟩ := hp
  rcases Bool.eq_false_or_eq_true (pyStartsWith fn ".") with hdot | hdot
  · rw [hdot] at hop
    simp at hop
  · rw [hdot] at hop
    simp only [Bool.false_eq_true, if_false, Option.some.injEq] at hop
    exact ⟨r, hr, fn, hfn, hdot, hop.symm⟩

/-- Claim C4, amended.  Hidden-entry skipping holds in the legacy flat walker:
DirPaths.walk of src/dirutility/walk.py (relative mode, ordinary separator-free
names) never returns a path whose final component begins with a dot.  The package
engine (Crawler) performs no such filtering — see the counterexample. -/
theorem c4_hidden_amended (d : String) (td : Bool) (cs : List Entry)
    (inc exc : List String) (cwd p : String)
    (hg : goodNames cs = true) (hp : p ∈ oldWalkRun d td cs inc exc false cwd) :
    pyStartsWith (pyBasename p) "." = false := by
  have hcol : p ∈ oldWalkCollect d td cs :=
    (mem_oldGetFilepaths_flat.mp hp).1
  obtain ⟨r, hr, fn, hfn, hdot, rfl⟩ := mem_oldWalkCollect hcol
  rw [pyBasename_pyJoin (walkRoot_files_good hg r hr fn hfn)]
  exact hdot

/-- Claim C4, witness: on a root with `ok.txt` and `.hidden`, the returned path
`ok.txt` has a dot-free basename. -/
theorem c4_hidden_amended_witness :
    goodNames csC4w = true ∧
    "ok.txt" ∈ oldWalkRun "" true csC4w [] [] false "" ∧
    pyStartsWith (pyBasename "ok.txt") "." = false :=
  ⟨rfl, by rw [show oldWalkRun "" true csC4w [] [] false "" = ["ok.txt"] from rfl]; decide,
   c4_hidden_amended "" true csC4w [] [] "" "ok.txt" rfl
     (by rw [show oldWalkRun "" true csC4w [] [] false "" = ["ok.txt"] from rfl]; decide)⟩

/-- The rows of a forest are the concatenation of its entries' rows. -/
theorem walkList_eq_flatMap (td : Bool) (rel : String) (cs : List Entry) :
    walkList td rel cs = cs.flatMap (walkEntry td rel) := by
  induction cs with
  | nil => rfl
  | cons e rest ih => simp [walkList, ih]

/-- Descent order changes row order only: the same rows are visited topdown and
bottom-up. -/
theorem mem_walk_td (td : Bool) :
    (∀ e : Entry, ∀ rel r, r ∈ walkEntry td rel e ↔ r ∈ walkEntry true rel e) ∧
    ∀ cs : List Entry, ∀ rel r, r ∈ walkList td rel cs ↔ r ∈ walkList true rel cs := by
  apply entry_mutual_ind
  · intro n rel r; simp [walkEntry]
  · intro n cs ih rel r
    have h1 : ∀ td2, r ∈ walkEntry td2 rel (.dir n cs) ↔
        (r = (pyJoin rel n, dirNames cs, fileNames cs) ∨
          r ∈ walkList td2 (pyJoin rel n) cs) := by
      intro td2
      cases td2 with
      | false => simp [walkEntry]; tauto
      | true => simp [walkEntry]
    rw [h1 td, h1 true, ih (pyJoin rel n) r]
  · intro rel r; simp [walkList]
  · intro e rest ihe ihrest rel r
    simp [walkList, ihe rel r, ihrest rel r]

/-- Membership in a full root walk, with the topdown orientation as reference. -/
theorem mem_walkRoot (td : Bool) (cs : List Entry) (r : Row) :
    r ∈ walkRoot td cs ↔
      r = ("", dirNames cs, fileNames cs) ∨ r ∈ walkList true "" cs := by
  cases td with
  | false =>
    simp only [walkRoot, if_neg Bool.false_ne_true, List.mem_append,
      List.mem_singleton, (mem_walk_td false).2 cs "" r]
    tauto
  | true => simp [walkRoot]

/-- Membership in a filesystem walk does not depend on the descent order. -/
theorem mem_walkOf_td (fs : FS) (d : String) (td : Bool) (r : Row) :
    r ∈ walkOf fs d td ↔ r ∈ walkOf fs d true := by
  unfold walkOf
  cases fs d with
  | none => exact Iff.rfl
  | some cs => exact (mem_walkRoot td cs r).trans (mem_walkRoot true cs r).symm

/-- The chunked partition loses and invents no roots. -/
theorem chunksOfSize_flatten (k : Nat) (xs : List String) :
    (chunksOfSize k xs).flatten = xs := by
  have key : ∀ n (ys : List String), ys.length ≤ n →
      (chunksOfSize k ys).flatten = ys := by
    intro n
    induction n with
    | zero =>
      intro ys hy
      cases ys with
      | nil => simp [chunksOfSize]
      | cons a as => simp at hy
    | succ n ih =>
      intro ys hy
      cases ys with
      | nil => simp [chunksOfSize]
      | cons a as =>
        have hlen : (as.drop (k - 1)).length ≤ n := by
          have h1 : as.length ≤ n := by simpa using hy
          have h2 : (as.drop (k - 1)).length ≤ as.length := by
            simp [List.length_drop]
          omega
        simp only [chunksOfSize, List.flatten_cons, ih (as.drop (k - 1)) hlen]
        simp [List.take_append_drop]
  exact key xs.length xs le_rfl

/-- Fanning a per-root scan over a partition equals scanning the flattened list. -/
theorem flatMap_of_flatten {α β : Type} (l : List (List α)) (g : α → List β) :
    l.flatMap (fun u => u.flatMap g) = l.flatten.flatMap g := by
  induction l with
  | nil => rfl
  | cons u rest ih => simp [ih]

/-- Claim C1, amended.  With a filter configuration present, the spec-modelled
parallel traverser and the sequential Crawler return set-equal results: the same
paths, for every filesystem, root list, worker count of at least one, full-paths
flag and descent order. -/
theorem c1_parallel_equiv (fs : FS) (dirs : List String) (f : PathFilters)
    (fp td : Bool) (pool : Nat) (_hpool : 1 ≤ pool) (p : String) :
    p ∈ sprinterRun fs dirs (some f) fp pool ↔ p ∈ crawlerFilter fs dirs f fp td := by
  rw [sprinterRun, List.mem_dedup]
  cases dirs with
  | nil =>
    simp [sprinterUnits, crawlerFilter]
  | cons d tail =>
    cases tail with
    | nil =>
      cases hfs : fs d with
      | none =>
        simp [sprinterUnits, crawlerFilter, walkOf, hfs]
      | some cs =>
        have hwalk : walkOf fs d td = walkRoot td cs := by
          simp [walkOf, hfs]
        have hL : p ∈ sprinterUnits fs [d] (some f) fp pool ↔
            (p ∈ processRow f fp d ("", dirNames cs, fileNames cs) ∨
             ∃ e ∈ cs, ∃ r ∈ walkEntry true "" e, p ∈ processRow f fp d r) := by
          simp [sprinterUnits, hfs, workerRows]
        have hR : p ∈ crawlerFilter fs [d] f fp td ↔
            ∃ r, (r = ("", dirNames cs, fileNames cs) ∨ r ∈ walkList true "" cs) ∧
              p ∈ processRow f fp d r := by
          simp only [crawlerFilter, List.flatMap_cons, List.flatMap_nil,
            List.append_nil, List.mem_flatMap, hwalk]
          constructor
          · rintro ⟨r, hr, hq⟩
            exact ⟨r, (mem_walkRoot td cs r).mp hr, hq⟩
          · rintro ⟨r, hr, hq⟩
            exact ⟨r, (mem_walkRoot td cs r).mpr hr, hq⟩
        rw [hL, hR]
        constructor
        · rintro (hp | ⟨e, he, r, hr, hp⟩)
          · exact ⟨_, Or.inl rfl, hp⟩
          · refine ⟨r, Or.inr ?_, hp⟩
            rw [walkList_eq_flatMap]
            exact List.mem_flatMap.mpr ⟨e, he, hr⟩
        · rintro ⟨r, hr | hr, hp⟩
          · exact Or.inl (hr ▸ hp)
          · rw [walkList_eq_flatMap] at hr
            obtain ⟨e, he, hr⟩ := List.mem_flatMap.mp hr
            exact Or.inr ⟨e, he, r, hr, hp⟩
    | cons d2 rest =>
      rw [show sprinterUnits fs (d :: d2 :: rest) (some f) fp pool =
          (chunksOfSize (((d :: d2 :: rest).length + pool - 1) / pool)
              (d :: d2 :: rest)).flatMap
            (fun unit => unit.flatMap (fun d3 =>
              workerRows (some f) fp d3 (walkOf fs d3 true))) from rfl]
      rw [flatMap_of_flatten, chunksOfSize_flatten]
      simp only [crawlerFilter, List.mem_flatMap, workerRows]
      constructor
      · rintro ⟨d3, hd3, r, hr, hp⟩
        exact ⟨d3, hd3, r, (mem_walkOf_td fs d3 td r).mpr hr, hp⟩
      · rintro ⟨d3, hd3, r, hr, hp⟩
        exact ⟨d3, hd3, r, (mem_walkOf_td fs d3 td r).mp hr, hp⟩

/-- Claim C1, witness for the amended equivalence: a single root with a subtree,
two workers, bottom-up sequential order. -/
theorem c1_parallel_equiv_witness :
    1 ≤ 2 ∧
    ("sub/in.txt" ∈ sprinterRun fsC1w ["r"] (some fC1) false 2 ↔
      "sub/in.txt" ∈ crawlerFilter fsC1w ["r"] fC1 false false) :=
  ⟨by decide, c1_parallel_equiv fsC1w ["r"] fC1 false false 2 (by decide) "sub/in.txt"⟩

/-- Claim C1, counterexample.  The claim quantifies over every filter
configuration, but with no filters supplied sequential mode does not produce a
result at all: it raises AttributeError (the C2 slip), while the spec-modelled
parallel traverser returns the file — so the two modes are not set-equal on this
request. -/
theorem c1_no_filter_modes_differ_cex :
    crawlerRun fsC1 ["r"] none false true = .error .attributeError ∧
    sprinterRun fsC1 ["r"] none false 1 = ["f.txt"] := by
  exact ⟨rfl, rfl⟩

/-- Looking a key up right after setting it yields the stored value. -/
theorem lookup_setEntry_self (es : List (String × Option PyDict)) (k : String)
    (v : Option PyDict) : lookupEntry (setEntry es k v) k = some v := by
  induction es with
  | nil => simp [setEntry, lookupEntry]
  | cons kv rest ih =>
    obtain ⟨k2, w⟩ := kv
    by_cases h : k2 = k
    · simp [setEntry, h, lookupEntry]
    · simp [setEntry, h, lookupEntry, ih]

/-- Setting a key to the value it already holds changes nothing. -/
theorem setEntry_lookup_id {es : List (String × Option PyDict)} {k : String}
    {v : Option PyDict} (h : lookupEntry es k = some v) : setEntry es k v = es := by
  induction es with
  | nil => simp [lookupEntry] at h
  | cons kv rest ih =>
    obtain ⟨k2, w⟩ := kv
    by_cases hk : k2 = k
    · rw [lookupEntry, if_pos hk] at h
      obtain rfl : w = v := by simpa using h
      simp [setEntry, hk]
    · rw [lookupEntry, if_neg hk] at h
      simp [setEntry, hk, ih h]

/-- Appending an entry under a different key preserves a failed lookup. -/
theorem lookupEntry_append_none {es : List (String × Option PyDict)}
    {k k2 : String} {v : Option PyDict} (h : lookupEntry es k = none)
    (hne : k ≠ k2) : lookupEntry (es ++ [(k2, v)]) k = none := by
  induction es with
  | nil =>
    rw [List.nil_append]
    rw [show lookupEntry [(k2, v)] k =
        (if k2 = k then some v else none) from rfl]
    rw [if_neg (Ne.symm hne)]
  | cons kv rest ih =>
    obtain ⟨k3, w⟩ := kv
    by_cases hk : k3 = k
    · rw [lookupEntry, if_pos hk] at h
      exact absurd h (by simp)
    · rw [lookupEntry, if_neg hk] at h
      simpa [lookupEntry, hk] using ih h

/-- Setting an absent key appends it at the end, Python-dict style. -/
theorem setEntry_append_fresh {es : List (String × Option PyDict)} {k : String}
    (h : lookupEntry es k = none) (v : Option PyDict) :
    setEntry es k v = es ++ [(k, v)] := by
  induction es with
  | nil => simp [setEntry]
  | cons kv rest ih =>
    obtain ⟨k2, w⟩ := kv
    by_cases hk : k2 = k
    · rw [lookupEntry, if_pos hk] at h
      exact absurd h (by simp)
    · rw [lookupEntry, if_neg hk] at h
      simp [setEntry, hk, ih h]

/-- Setting the same key twice keeps only the second value. -/
theorem setEntry_setEntry_same (es : List (String × Option PyDict)) (k : String)
    (v w : Option PyDict) : setEntry (setEntry es k v) k w = setEntry es k w := by
  induction es with
  | nil => simp [setEntry]
  | cons kv rest ih =>
    obtain ⟨k2, u⟩ := kv
    by_cases hk : k2 = k
    · simp [setEntry, hk]
    · simp [setEntry, hk, ih]

/-- A lookup fails exactly when the key is absent. -/
theorem lookupEntry_eq_none_iff {es : List (String × Option PyDict)} {k : String} :
    lookupEntry es k = none ↔ k ∉ es.map Prod.fst := by
  induction es with
  | nil => simp [lookupEntry]
  | cons kv rest ih =>
    obtain ⟨k2, w⟩ := kv
    by_cases hk : k2 = k
    · simp [lookupEntry, hk]
    · rw [show lookupEntry ((k2, w) :: rest) k = lookupEntry rest k from by
        simp [lookupEntry, hk]]
      rw [ih]
      simp only [List.map_cons, List.mem_cons, not_or]
      exact ⟨fun h => ⟨fun he => hk he.symm, h⟩, fun h => h.2⟩

/-- The keys of the file entries are the file names. -/
theorem filesEntries_fst : ∀ cs : List Entry,
    (filesEntries cs).map Prod.fst = fileNames cs := by
  intro cs
  induction cs with
  | nil => rfl
  | cons e rest ih =>
    cases e with
    | file n => simp [filesEntries, fileNames, ih]
    | dir n g => simp [filesEntries, fileNames, ih]

/-- fromkeys of the filenames is exactly the file-entries dict. -/
theorem fromKeys_fileNames (cs : List Entry) :
    fromKeys (fileNames cs) = .mk (filesEntries cs) := by
  unfold fromKeys
  congr 1
  induction cs with
  | nil => rfl
  | cons e rest ih =>
    cases e with
    | file n => simp [fileNames, filesEntries, ih]
    | dir n g => simp [fileNames, filesEntries, ih]

/-- Directory names sit among the child names. -/
theorem dirNames_subset_childNames : ∀ cs : List Entry, ∀ n ∈ dirNames cs,
    n ∈ childNames cs := by
  intro cs
  induction cs with
  | nil => simp [dirNames]
  | cons e rest ih =>
    intro n hn
    cases e with
    | file m => exact List.mem_cons_of_mem _ (ih n (by simpa [dirNames] using hn))
    | dir m g =>
      rcases (by simpa [dirNames] using hn : n = m ∨ n ∈ dirNames rest) with h | h
      · simp [childNames, entryName, h]
      · exact List.mem_cons_of_mem _ (ih n h)

/-- File names sit among the child names. -/
theorem fileNames_subset_childNames : ∀ cs : List Entry, ∀ n ∈ fileNames cs,
    n ∈ childNames cs := by
  intro cs
  induction cs with
  | nil => simp [fileNames]
  | cons e rest ih =>
    intro n hn
    cases e with
    | dir m g => exact List.mem_cons_of_mem _ (ih n (by simpa [fileNames] using hn))
    | file m =>
      rcases (by simpa [fileNames] using hn : n = m ∨ n ∈ fileNames rest) with h | h
      · simp [childNames, entryName, h]
      · exact List.mem_cons_of_mem _ (ih n h)

/-- Distinct child names split into distinct directory names that avoid every
file name. -/
theorem nodup_child_facts : ∀ cs : List Entry, (childNames cs).Nodup →
    (dirNames cs).Nodup ∧ ∀ n ∈ dirNames cs, n ∉ fileNames cs := by
  intro cs
  induction cs with
  | nil => intro _; exact ⟨List.nodup_nil, by simp [dirNames]⟩
  | cons e rest ih =>
    intro h
    have hsplit : entryName e ∉ childNames rest ∧ (childNames rest).Nodup := by
      rw [show childNames (e :: rest) = entryName e :: childNames rest from rfl] at h
      exact List.nodup_cons.mp h
    obtain ⟨ihn, ihf⟩ := ih hsplit.2
    cases e with
    | file m =>
      refine ⟨by simpa [dirNames] using ihn, ?_⟩
      intro n hn hmem
      have hn' : n ∈ dirNames rest := by simpa [dirNames] using hn
      rcases (by simpa [fileNames] using hmem : n = m ∨ n ∈ fileNames rest) with
        he | hm
      · subst he
        exact hsplit.1 (by simpa [entryName] using dirNames_subset_childNames rest n hn')
      · exact ihf n hn' hm
    | dir m g =>
      constructor
      · rw [show dirNames (Entry.dir m g :: rest) = m :: dirNames rest from rfl]
        refine List.nodup_cons.mpr ⟨?_, ihn⟩
        intro hmem
        exact hsplit.1 (by simpa [entryName] using dirNames_subset_childNames rest m hmem)
      · intro n hn hmem
        have hmem' : n ∈ fileNames rest := by simpa [fileNames] using hmem
        rcases (by simpa [dirNames] using hn : n = m ∨ n ∈ dirNames rest) with
          he | hd
        · subst he
          exact hsplit.1 (by simpa [entryName] using fileNames_subset_childNames rest n hmem')
        · exact ihf n hd hmem'

/-- Processing a concatenation of rows is processing them in sequence. -/
theorem dirTreeGetRows_append (A B : List SegRow) (acc : PyDict) :
    dirTreeGetRows [] (A ++ B) acc =
      (dirTreeGetRows [] A acc).bind (dirTreeGetRows [] B) := by
  induction A generalizing acc with
  | nil => simp [dirTreeGetRows, Except.bind]
  | cons r A ih =>
    obtain ⟨folders, dns, fls⟩ := r
    rw [List.cons_append]
    rw [show dirTreeGetRows [] ((folders, dns, fls) :: (A ++ B)) acc =
        (match insertRow folders fls acc with
         | .ok acc2 => dirTreeGetRows [] (A ++ B) acc2
         | .error e => .error e) from rfl]
    rw [show dirTreeGetRows [] ((folders, dns, fls) :: A) acc =
        (match insertRow folders fls acc with
         | .ok acc2 => dirTreeGetRows [] A acc2
         | .error e => .error e) from rfl]
    cases insertRow folders fls acc with
    | ok acc2 => simp [ih]
    | error e => simp [Except.bind]

/-- Processing one row whose insertion succeeds continues on the updated dict. -/
theorem dirTreeGetRows_cons_ok {folders : List String}
    {dns fls : List String} {rest : List SegRow} {acc acc2 : PyDict}
    (h : insertRow folders fls acc = .ok acc2) :
    dirTreeGetRows [] ((folders, dns, fls) :: rest) acc =
      dirTreeGetRows [] rest acc2 := by
  simp only [dirTreeGetRows, h]

/-- Prefixing every row's segment path with one extra leading segment turns the
rows of a forest at a deeper anchor into the rows at the shallower one. -/
theorem treeRows_shift (k : String) :
    (∀ e : Entry, ∀ segs, treeRowsEntry (k :: segs) e =
        (treeRowsEntry segs e).map (fun r => (k :: r.1, r.2))) ∧
    ∀ cs : List Entry, ∀ segs, treeRowsList (k :: segs) cs =
        (treeRowsList segs cs).map (fun r => (k :: r.1, r.2)) := by
  apply entry_mutual_ind
  · intro n segs; simp [treeRowsEntry]
  · intro n cs ih segs
    simp [treeRowsEntry, List.cons_append, ih (segs ++ [n])]
  · intro segs; simp [treeRowsList]
  · intro e rest ihe ihrest segs
    simp [treeRowsList, ihe segs, ihrest segs]

/-- Every row below a directory has a non-empty segment path. -/
theorem treeRows_folders_ne_nil :
    (∀ e : Entry, ∀ segs r, r ∈ treeRowsEntry segs e → r.1 ≠ []) ∧
    ∀ cs : List Entry, ∀ segs r, r ∈ treeRowsList segs cs → r.1 ≠ [] := by
  apply entry_mutual_ind
  · intro n segs r hr; simp [treeRowsEntry] at hr
  · intro n cs ih segs r hr
    rcases (by simpa [treeRowsEntry] using hr :
        r = (segs ++ [n], dirNames cs, fileNames cs) ∨
          r ∈ treeRowsList (segs ++ [n]) cs) with h | h
    · subst h; simp
    · exact ih (segs ++ [n]) r h
  · intro segs r hr; simp [treeRowsList] at hr
  · intro e rest ihe ihrest segs r hr
    rcases (by simpa [treeRowsList] using hr :
        r ∈ treeRowsEntry segs e ∨ r ∈ treeRowsList segs rest) with h | h
    · exact ihe segs r h
    · exact ihrest segs r h

/-- Descending one path step through an existing nested dict splices the inner
update back under the same key. -/
theorem setAtPath_cons_found (s : String) (rest : List String) (D C : PyDict)
    (key : String) (v : Option PyDict)
    (hk : lookupEntry D.entries s = some (some C)) :
    setAtPath (s :: rest) D key v =
      (setAtPath rest C key v).map
        (fun C2 => PyDict.mk (setEntry D.entries s (some C2))) := by
  simp only [setAtPath, hk]
  cases setAtPath rest C key v with
  | ok c2 => rfl
  | error e => rfl

/-- One insertion at a path below the key `k` acts inside the dict stored at `k`. -/
theorem insertRow_below (k f0 : String) (frest fls : List String) (D C : PyDict)
    (hk : lookupEntry D.entries k = some (some C)) :
    insertRow (k :: f0 :: frest) fls D =
      (insertRow (f0 :: frest) fls C).map
        (fun C2 => PyDict.mk (setEntry D.entries k (some C2))) := by
  cases hlast : (f0 :: frest).getLast? with
  | none => simp at hlast
  | some last =>
    rw [show insertRow (k :: f0 :: frest) fls D =
        setAtPath ((k :: f0 :: frest).dropLast) D last (some (fromKeys fls)) from by
      simp [insertRow, List.getLast?_cons_cons, hlast]]
    rw [show insertRow (f0 :: frest) fls C =
        setAtPath ((f0 :: frest).dropLast) C last (some (fromKeys fls)) from by
      simp [insertRow, hlast]]
    rw [show ((k :: f0 :: frest).dropLast) = k :: (f0 :: frest).dropLast from rfl]
    exact setAtPath_cons_found k ((f0 :: frest).dropLast) D C last
      (some (fromKeys fls)) hk

/-- Zoom: processing rows that all live below the key `k` equals processing the
un-prefixed rows against the dict stored at `k`, splicing the result back in. -/
theorem dirTreeGetRows_zoom (k : String) :
    ∀ (R : List SegRow) (D C : PyDict),
      lookupEntry D.entries k = some (some C) →
      (∀ r ∈ R, r.1 ≠ []) →
      dirTreeGetRows [] (R.map (fun r => (k :: r.1, r.2))) D =
        (dirTreeGetRows [] R C).map
          (fun C2 => PyDict.mk (setEntry D.entries k (some C2))) := by
  intro R
  induction R with
  | nil =>
    intro D C hk _
    simp only [List.map_nil, dirTreeGetRows, Except.map]
    rw [setEntry_lookup_id hk]
    cases D with
    | mk es => rfl
  | cons r R ih =>
    intro D C hk hne
    obtain ⟨folders, dns, fls⟩ := r
    have hfne : folders ≠ [] := by
      have := hne (folders, dns, fls) (by simp)
      simpa using this
    cases folders with
    | nil => exact absurd rfl hfne
    | cons f0 frest =>
      rw [List.map_cons]
      rw [show dirTreeGetRows []
          ((k :: f0 :: frest, dns, fls) :: R.map (fun r => (k :: r.1, r.2))) D =
          (match insertRow (k :: f0 :: frest) fls D with
           | .ok acc2 => dirTreeGetRows [] (R.map (fun r => (k :: r.1, r.2))) acc2
           | .error e => .error e) from rfl]
      rw [show dirTreeGetRows [] (((f0 :: frest, dns, fls)) :: R) C =
          (match insertRow (f0 :: frest) fls C with
           | .ok acc2 => dirTreeGetRows [] R acc2
           | .error e => .error e) from rfl]
      rw [insertRow_below k f0 frest fls D C hk]
      cases hins : insertRow (f0 :: frest) fls C with
      | error e => simp [Except.map]
      | ok C2 =>
        simp only [Except.map]
        have hk2 : lookupEntry (PyDict.mk (setEntry D.entries k (some C2))).entries k =
            some (some C2) := by
          simp [PyDict.entries, lookup_setEntry_self]
        rw [ih (PyDict.mk (setEntry D.entries k (some C2))) C2 hk2
          (fun r hr => hne r (by simp [hr]))]
        cases dirTreeGetRows [] R C2 with
        | ok X => simp [Except.map, PyDict.entries, setEntry_setEntry_same]
        | error e => simp [Except.map]

/-- Combined statement for the DirTree soundness induction: `Aux` processes the
rows of a pending forest against a prefix dict, `Main` processes one directory's
block of rows. -/
theorem dirTree_main_aux : ∀ N : Nat,
    (∀ pending : List Entry, sizeOf pending ≤ N →
      ∀ prefixE : List (String × Option PyDict),
        (∀ dn ∈ dirNames pending, lookupEntry prefixE dn = none) →
        (dirNames pending).Nodup → wfForest pending = true →
        dirTreeGetRows [] (treeRowsList [] pending) (.mk prefixE) =
          .ok (.mk (prefixE ++ dirsEntries pending))) ∧
    ∀ g : List Entry, sizeOf g ≤ N → ∀ (n : String) (D : PyDict),
      wfTree g = true →
      dirTreeGetRows [] (treeRowsEntry [] (.dir n g)) D =
        .ok (.mk (setEntry D.entries n (some (.mk (treeEntries g))))) := by
  intro N
  induction N using Nat.strong_induction_on with
  | _ N IH =>
    have aux : ∀ pending : List Entry, sizeOf pending ≤ N →
        ∀ prefixE : List (String × Option PyDict),
          (∀ dn ∈ dirNames pending, lookupEntry prefixE dn = none) →
          (dirNames pending).Nodup → wfForest pending = true →
          dirTreeGetRows [] (treeRowsList [] pending) (.mk prefixE) =
            .ok (.mk (prefixE ++ dirsEntries pending)) := by
      intro pending hsz prefixE hfresh hnodup hwf
      cases pending with
      | nil => simp [treeRowsList, dirTreeGetRows, dirsEntries]
      | cons e rest =>
        have hsz0 : sizeOf (e :: rest) = 1 + sizeOf e + sizeOf rest := by simp
        cases e with
        | file m =>
          have hrest := IH (sizeOf rest) (by omega) |>.1 rest le_rfl
          rw [show treeRowsList [] (Entry.file m :: rest) = treeRowsList [] rest
            from by simp [treeRowsList, treeRowsEntry]]
          rw [hrest prefixE (by simpa [dirNames] using hfresh)
            (by simpa [dirNames] using hnodup)
            (by simpa [wfForest, wfEntry, Bool.and_eq_true] using hwf)]
          rw [show dirsEntries (Entry.file m :: rest) = dirsEntries rest from by
            simp [dirsEntries]]
        | dir m g =>
          have hse : sizeOf (Entry.dir m g) = 1 + sizeOf m + sizeOf g := by simp
          have hw3 : ((childNames g).Nodup ∧ wfForest g = true) ∧
              wfForest rest = true := by
            simpa [wfForest, wfEntry, Bool.and_eq_true, decide_eq_true_eq] using hwf
          have hnodup2 : m ∉ dirNames rest ∧ (dirNames rest).Nodup := by
            have := List.nodup_cons.mp (by simpa [dirNames] using hnodup)
            exact this
          rw [show treeRowsList [] (Entry.dir m g :: rest) =
              treeRowsEntry [] (.dir m g) ++ treeRowsList [] rest from by
            simp [treeRowsList]]
          rw [dirTreeGetRows_append]
          have hmain := IH (sizeOf g) (by omega) |>.2 g le_rfl
          have hwtg : wfTree g = true := by
            simp only [wfTree, Bool.and_eq_true, decide_eq_true_eq]
            exact hw3.1
          rw [hmain m (.mk prefixE) hwtg]
          rw [show (PyDict.mk prefixE).entries = prefixE from rfl]
          rw [setEntry_append_fresh (hfresh m (by simp [dirNames])) _]
          rw [show Except.bind
              (Except.ok (ε := PyErr)
                (PyDict.mk (prefixE ++ [(m, some (.mk (treeEntries g)))])))
              (dirTreeGetRows [] (treeRowsList [] rest)) =
            dirTreeGetRows [] (treeRowsList [] rest)
              (.mk (prefixE ++ [(m, some (.mk (treeEntries g)))])) from rfl]
          have hrest := IH (sizeOf rest) (by omega) |>.1 rest le_rfl
          rw [hrest (prefixE ++ [(m, some (.mk (treeEntries g)))])
            (fun dn hdn =>
              lookupEntry_append_none (hfresh dn (by simp [dirNames, hdn]))
                (fun he => hnodup2.1 (he ▸ hdn)))
            hnodup2.2 hw3.2]
          rw [show dirsEntries (Entry.dir m g :: rest) =
              (m, some (.mk (filesEntries g ++ dirsEntries g))) :: dirsEntries rest
            from by simp [dirsEntries]]
          simp [treeEntries, List.append_assoc]
    have main : ∀ g : List Entry, sizeOf g ≤ N → ∀ (n : String) (D : PyDict),
        wfTree g = true →
        dirTreeGetRows [] (treeRowsEntry [] (.dir n g)) D =
          .ok (.mk (setEntry D.entries n (some (.mk (treeEntries g))))) := by
      intro g hsz n D hwt
      have hw2 : (childNames g).Nodup ∧ wfForest g = true := by
        simpa [wfTree, Bool.and_eq_true, decide_eq_true_eq] using hwt
      have hfacts := nodup_child_facts g hw2.1
      rw [show treeRowsEntry [] (.dir n g) =
          (([n] : List String), dirNames g, fileNames g) :: treeRowsList [n] g
        from by simp [treeRowsEntry]]
      rw [dirTreeGetRows_cons_ok
        (show insertRow [n] (fileNames g) D =
          .ok (.mk (setEntry D.entries n (some (fromKeys (fileNames g))))) from rfl)]
      rw [fromKeys_fileNames]
      have hshift : treeRowsList [n] g =
          (treeRowsList [] g).map (fun r => (n :: r.1, r.2)) :=
        (treeRows_shift n).2 g []
      rw [hshift]
      rw [dirTreeGetRows_zoom n (treeRowsList [] g)
        (.mk (setEntry D.entries n (some (.mk (filesEntries g)))))
        (.mk (filesEntries g))
        (by simp [PyDict.entries, lookup_setEntry_self])
        (fun r hr => treeRows_folders_ne_nil.2 g [] r hr)]
      have hlook : ∀ dn ∈ dirNames g, lookupEntry (filesEntries g) dn = none := by
        intro dn hdn
        rw [lookupEntry_eq_none_iff, filesEntries_fst]
        exact hfacts.2 dn hdn
      rw [aux g hsz (filesEntries g) hlook hfacts.1 hw2.2]
      simp [Except.map, PyDict.entries, setEntry_setEntry_same, treeEntries]
    exact ⟨aux, main⟩

/-- Claim C10.  With branches absent and a topdown walk, DirTree.get's
reduce-based parent lookup always lands on an existing nested dict — every
ancestor is inserted before its descendants — so no insertion dereferences a
missing parent, and the finished structure maps the root name to the mapping of
its contents, with each file name mapped to None and each directory name to the
mapping of its own contents. -/
theorem c10_dirtree_builds (rootName : String) (cs : List Entry)
    (hwf : wfTree cs = true) :
    dirTreeGet rootName cs [] =
      .ok (.mk [(rootName, some (.mk (treeEntries cs)))]) := by
  have hmain := (dirTree_main_aux (sizeOf cs)).2 cs le_rfl
  have h1 : treeRowsTop rootName cs = treeRowsEntry [] (.dir rootName cs) := by
    simp [treeRowsTop, treeRowsEntry]
  rw [dirTreeGet, h1, hmain rootName (.mk []) hwf]
  rfl

/-- Claim C10, witness on the spec's TreeBuilder example tree (root `top`
containing `x/y.txt` and `x/z/w.txt`). -/
theorem c10_dirtree_builds_witness :
    wfTree csC10 = true ∧
    dirTreeGet "top" csC10 [] =
      .ok (.mk [("top", some (.mk (treeEntries csC10)))]) :=
  ⟨by decide, c10_dirtree_builds "top" csC10 (by decide)⟩

end Dirutility
